import Mathlib

/-!
Verification of the supplemental-context classification and filesystem
utility core of the aws-toolkit-vscode repository slice.

Source files embedded:
- packages/core/src/codewhisperer/util/supplementalContext/codeParsingUtil.ts
- packages/core/src/shared/filesystemUtilities.ts
- src/unnamed/part_000 (inline-completion text utilities)

JavaScript strings are embedded as Lean `String` (operating on `.data`
character lists where convenient); machine integers are `Nat`; the abstract
filesystem capability and randomness source of `getNonexistentFilename` are
explicit function parameters; regular expressions stored in the language
configuration table are embedded as decidable predicates on the filename,
and the `exec`-style extraction regexes as abstract matchers.
-/

namespace Aws

/-- Line terminators of a JavaScript regular expression `.` (which matches
any character except a line terminator). -/
def isLineTerminator (c : Char) : Bool :=
  c = '\n' || c = '\r' || c = '\u2028' || c = '\u2029'

/-- Removes the longest run of elements satisfying `p` at the end of `l`. -/
def listDropTrailing (p : α → Bool) (l : List α) : List α :=
  (l.reverse.dropWhile p).reverse

/-- JavaScript `String.prototype.split` with a single-character separator:
`"".split(c)` is `[""]`, and a trailing separator yields a trailing empty
group. -/
def splitChar (sep : Char) : List Char → List (List Char)
  | [] => [[]]
  | c :: cs =>
    if c = sep then [] :: splitChar sep cs
    else
      match splitChar sep cs with
      | [] => [[c]]
      | g :: gs => (c :: g) :: gs

/-- JavaScript `String.prototype.includes` on character lists: `needle`
occurs contiguously inside `haystack`. -/
def hasSubstr (needle : List Char) : List Char → Bool
  | [] => needle.isEmpty
  | c :: t => needle.isPrefixOf (c :: t) || hasSubstr needle t

/-- JavaScript `s.includes(sub)`. -/
def strIncludes (s sub : String) : Bool :=
  hasSubstr sub.data s.data

/-- JavaScript `String.prototype.toLowerCase` (per-character lowering). -/
def toLowerCase (s : String) : String :=
  ⟨s.data.map Char.toLower⟩

/-- The character list `l` ends with the character list `suffix`. -/
def endsWithChars (l suffix : List Char) : Bool :=
  l.drop (l.length - suffix.length) == suffix

/-- Semantics of the regular-expression fragment `(.+)` matched against
exactly `l`: nonempty, and no line terminators. -/
def anyPlus (l : List Char) : Bool :=
  !l.isEmpty && l.all (fun c => !isLineTerminator c)

/-- Node `path.basename` on a slash-normalized path: the final segment,
ignoring trailing separators. -/
def basename (p : String) : String :=
  ⟨((listDropTrailing (fun c => c = '/') p.data).reverse.takeWhile
      (fun c => !(c = '/'))).reverse⟩

/-- Test-filename regex `^(.+)Test(\.java)$` of the `java` configuration. -/
def javaTestFilePattern1 (s : String) : Bool :=
  endsWithChars s.data "Test.java".data && anyPlus (s.data.take (s.data.length - 9))

/-- Test-filename regex `(.+)Tests(\.java)$` of the `java` configuration
(unanchored at the start, so it only needs one non-line-terminator character
immediately before the `Tests.java` suffix). -/
def javaTestFilePattern2 (s : String) : Bool :=
  endsWithChars s.data "Tests.java".data &&
    (match (s.data.take (s.data.length - 10)).getLast? with
     | some c => !isLineTerminator c
     | none => false)

/-- Test-filename regex `Test(.+)(\.java)$` of the `java` configuration:
an occurrence of `Test`, at least one non-line-terminator character, then
`.java` at the end. -/
def javaTestFilePattern3 (s : String) : Bool :=
  endsWithChars s.data ".java".data &&
    (List.range s.data.length).any (fun i =>
      (s.data.drop i).take 4 == "Test".data &&
      decide (i + 4 < s.data.length - 5) &&
      ((s.data.drop (i + 4)).take (s.data.length - 5 - (i + 4))).all
        (fun c => !isLineTerminator c))

/-- Test-filename regex `^test_(.+)(\.py)$` of the `python` configuration. -/
def pythonTestFilePattern1 (s : String) : Bool :=
  "test_".data.isPrefixOf s.data && endsWithChars s.data ".py".data &&
    anyPlus ((s.data.take (s.data.length - 3)).drop 5)

/-- Test-filename regex `^(.+)_test(\.py)$` of the `python` configuration. -/
def pythonTestFilePattern2 (s : String) : Bool :=
  endsWithChars s.data "_test.py".data && anyPlus (s.data.take (s.data.length - 8))

/-- Test-filename regex `^(.+)\.test(\.ts|\.tsx)$` of the `typescript` and
`typescriptreact` configurations. -/
def typescriptTestFilePattern (s : String) : Bool :=
  (endsWithChars s.data ".test.ts".data && anyPlus (s.data.take (s.data.length - 8))) ||
  (endsWithChars s.data ".test.tsx".data && anyPlus (s.data.take (s.data.length - 9)))

/-- Test-filename regex `^(.+)\.spec(\.ts|\.tsx)$` of the `typescript` and
`typescriptreact` configurations. -/
def typescriptSpecFilePattern (s : String) : Bool :=
  (endsWithChars s.data ".spec.ts".data && anyPlus (s.data.take (s.data.length - 8))) ||
  (endsWithChars s.data ".spec.tsx".data && anyPlus (s.data.take (s.data.length - 9)))

/-- Test-filename regex `^(.+)\.test(\.js|\.jsx)$` of the `javascript` and
`javascriptreact` configurations. -/
def javascriptTestFilePattern (s : String) : Bool :=
  (endsWithChars s.data ".test.js".data && anyPlus (s.data.take (s.data.length - 8))) ||
  (endsWithChars s.data ".test.jsx".data && anyPlus (s.data.take (s.data.length - 9)))

/-- Test-filename regex `^(.+)\.spec(\.js|\.jsx)$` of the `javascript` and
`javascriptreact` configurations. -/
def javascriptSpecFilePattern (s : String) : Bool :=
  (endsWithChars s.data ".spec.js".data && anyPlus (s.data.take (s.data.length - 8))) ||
  (endsWithChars s.data ".spec.jsx".data && anyPlus (s.data.take (s.data.length - 9)))

/-- Language configuration record (`utgLanguageConfig` in
codeParsingUtil.ts). The `testFilenamePattern` regexes, which are the only
patterns consulted by the functions verified here, are embedded as decidable
predicates on the filename; the extraction regexes, which the source only
stores and hands to callers, are kept as their literal source text. -/
structure utgLanguageConfig where
  extension : String
  testFilenamePattern : List (String → Bool)
  functionExtractionPattern : Option String
  classExtractionPattern : Option String
  importStatementRegExp : Option String

/-- Entry `java` of `utgLanguageConfigs`. -/
def javaConfig : utgLanguageConfig :=
  ⟨".java",
   [javaTestFilePattern1, javaTestFilePattern2, javaTestFilePattern3],
   some "(?:(?:public|private|protected)\\s+)(?:static\\s+)?(?:[\\w<>]+\\s+)?(\\w+)\\s*\\([^)]*\\)\\s*(?:(?:throws\\s+\\w+)?\\s*)[\x7b;]",
   some "(?<=^|\\n)\\s*public\\s+class\\s+(\\w+)",
   some "import .*\\.([a-zA-Z0-9]+);"⟩

/-- Entry `python` of `utgLanguageConfigs`. -/
def pythonConfig : utgLanguageConfig :=
  ⟨".py",
   [pythonTestFilePattern1, pythonTestFilePattern2],
   some "def\\s+([a-zA-Z_][a-zA-Z0-9_]*)\\s*\\(",
   some "^class\\s+(\\w+)\\s*:",
   some "from (.*) import.*"⟩

/-- Entry `typescript` of `utgLanguageConfigs`. -/
def typescriptConfig : utgLanguageConfig :=
  ⟨".ts", [typescriptTestFilePattern, typescriptSpecFilePattern], none, none, none⟩

/-- Entry `javascript` of `utgLanguageConfigs`. -/
def javascriptConfig : utgLanguageConfig :=
  ⟨".js", [javascriptTestFilePattern, javascriptSpecFilePattern], none, none, none⟩

/-- Entry `typescriptreact` of `utgLanguageConfigs`. -/
def typescriptreactConfig : utgLanguageConfig :=
  ⟨".tsx", [typescriptTestFilePattern, typescriptSpecFilePattern], none, none, none⟩

/-- Entry `javascriptreact` of `utgLanguageConfigs`. -/
def javascriptreactConfig : utgLanguageConfig :=
  ⟨".jsx", [javascriptTestFilePattern, javascriptSpecFilePattern], none, none, none⟩

/-- The static language-configuration table
(`Record<string, utgLanguageConfig>` in codeParsingUtil.ts), embedded as an
exact-match lookup by language identifier. -/
def utgLanguageConfigs (lang : String) : Option utgLanguageConfig :=
  if lang = "java" then some javaConfig
  else if lang = "python" then some pythonConfig
  else if lang = "typescript" then some typescriptConfig
  else if lang = "javascript" then some javascriptConfig
  else if lang = "typescriptreact" then some typescriptreactConfig
  else if lang = "javascriptreact" then some javascriptreactConfig
  else none

/-- An `exec`-style matcher abstracting a JavaScript global regular
expression: given the subject string and the current `lastIndex`, it returns
the next match as `(index, newLastIndex, firstCaptureGroup)`, or `none` when
no further match exists. -/
def Matcher : Type :=
  String → Nat → Option (Nat × Nat × String)

/-- Fuel-bounded loop of `extractFunctions`/`extractClasses`: repeatedly
calls the matcher from the current `lastIndex`, collecting the first capture
group of each match. For a matcher that advances (as a JavaScript global
regex whose matches are nonempty does), fuel `length + 1` is never
exhausted. -/
def extractMatchesAux (m : Matcher) (fileContent : String) : Nat → Nat → List String
  | _, 0 => []
  | li, fuel + 1 =>
    match m fileContent li with
    | none => []
    | some (_, e, g) => g :: extractMatchesAux m fileContent e fuel

/-- Embedding of `extractFunctions` (codeParsingUtil.ts): an undefined regex
yields `[]`; otherwise the `while ((match = regex.exec(fileContent)))` loop
collecting `match[1]`. -/
def extractFunctions (fileContent : String) (regex : Option Matcher) : List String :=
  match regex with
  | none => []
  | some m => extractMatchesAux m fileContent 0 (fileContent.data.length + 1)

/-- Embedding of `extractClasses` (codeParsingUtil.ts), identical to
`extractFunctions`. -/
def extractClasses (fileContent : String) (regex : Option Matcher) : List String :=
  match regex with
  | none => []
  | some m => extractMatchesAux m fileContent 0 (fileContent.data.length + 1)

/-- Embedding of `countSubstringMatches` (codeParsingUtil.ts): the nested
`for` loops incrementing one counter on each case-insensitive substring
hit. -/
def countSubstringMatches (arr1 arr2 : List String) : Nat :=
  arr1.foldl
    (fun count str1 =>
      arr2.foldl
        (fun c str2 => if strIncludes (toLowerCase str2) (toLowerCase str1) then c + 1 else c)
        count)
    0

/-- Modelled from the spec: `pathUtils.normalizeSeparator` (imported by
filesystemUtilities.ts but not part of the visible sources) rewrites every
backslash separator to a slash, yielding the slash-separated form the spec
describes. -/
def normalizeSeparator (p : String) : String :=
  ⟨p.data.map (fun c => if c = '\\' then '/' else c)⟩

/-- Modelled from the spec: `pathUtils.normalize` (imported by
codeParsingUtil.ts and filesystemUtilities.ts but not part of the visible
sources) is used by the spec only as slash-normalization of the path, so it
is modelled as `normalizeSeparator`. -/
def normalize (p : String) : String :=
  normalizeSeparator p

/-- Second argument record of `isTestFile` (codeParsingUtil.ts):
`{ languageId, fileContent? }`. -/
structure ClassificationInput where
  languageId : String
  fileContent : Option String

/-- Path heuristic of `isTestFile`: the normalized path contains
`tests/`, `test/` or `tst/` (a JavaScript `includes` substring check). -/
def pathContainsTest (normalizedFilePath : String) : Bool :=
  strIncludes normalizedFilePath "tests/" ||
  strIncludes normalizedFilePath "test/" ||
  strIncludes normalizedFilePath "tst/"

/-- Embedding of `isTestFileByName` (codeParsingUtil.ts): looks the language
up in `utgLanguageConfigs` (absent configuration yields `false`) and tests
the basename of the path against each configured test-filename pattern. -/
def isTestFileByName (filePath : String) (language : String) : Bool :=
  match utgLanguageConfigs language with
  | none => false
  | some languageConfig =>
    languageConfig.testFilenamePattern.any (fun pattern => pattern (basename filePath))

/-- Embedding of `isTestFile` (codeParsingUtil.ts): true when the path
heuristic or the name heuristic fires; `fileContent` is accepted but
unused. -/
def isTestFile (filePath : String) (languageConfig : ClassificationInput) : Bool :=
  let normalizedFilePath := normalize filePath
  let pathContains := pathContainsTest normalizedFilePath
  let fileNameMatchTestPatterns := isTestFileByName normalizedFilePath languageConfig.languageId
  if pathContains || fileNameMatchTestPatterns then true else false

/-- Claim-side predicate: the slash-normalized path contains `tests`,
`test` or `tst` as a whole path segment. -/
def hasTestSegment (normalizedFilePath : String) : Bool :=
  (splitChar '/' normalizedFilePath.data).any
    (fun seg => seg == "tests".data || seg == "test".data || seg == "tst".data)

/-- Descending search of `getPrefixSuffixOverlap` (part_000): the `while`
loop decrementing `i` from `min(len a, len b)` until the first `i` with
`b.slice(0, i) === a.slice(-i)`. -/
def overlapLen (a b : List Char) : Nat → Nat
  | 0 => 0
  | i + 1 => if b.take (i + 1) = a.drop (a.length - (i + 1)) then i + 1 else overlapLen a b i

/-- Embedding of `getPrefixSuffixOverlap` (part_000): the longest overlap
between a suffix of `firstString` and a prefix of `secondString`. -/
def getPrefixSuffixOverlap (firstString secondString : String) : String :=
  ⟨secondString.data.take
    (overlapLen firstString.data secondString.data
      (min firstString.data.length secondString.data.length))⟩

/-- Trailing-empty-segment removal of `isInDirectory`
(filesystemUtilities.ts): the `while ... pop()` loop removing final empty
pieces. -/
def dropTrailingEmpties (pieces : List (List Char)) : List (List Char) :=
  listDropTrailing (fun piece => piece.isEmpty) pieces

/-- Per-segment comparison of `isInDirectory`: case-insensitive only in the
Windows regime. -/
def segEq (caseInsensitive : Bool) (a b : List Char) : Bool :=
  if caseInsensitive then a.map Char.toLower == b.map Char.toLower else a == b

/-- Embedding of `isInDirectory` (filesystemUtilities.ts). The
`caseInsensitive` flag stands for `os.platform() === 'win32'`. -/
def isInDirectory (caseInsensitive : Bool) (d p : String) : Bool :=
  if d = "" ∨ p = "" then true
  else
    let parentDirPieces := splitChar '/' (normalizeSeparator d).data
    let containedPathPieces := splitChar '/' (normalizeSeparator p).data
    if parentDirPieces.length > containedPathPieces.length then false
    else
      ((dropTrailingEmpties parentDirPieces).zip containedPathPieces).all
        (fun ab => segEq caseInsensitive ab.1 ab.2)

/-- A string of `k` slashes, used to state how trailing separators affect
`isInDirectory`. -/
def slashes (k : Nat) : String :=
  ⟨List.replicate k '/'⟩

/-- Common-prefix length of two segment sequences, the `while` loop of
`getFileDistance`. -/
def commonPrefixLen : List (List Char) → List (List Char) → Nat
  | x :: xs, y :: ys => if x = y then commonPrefixLen xs ys + 1 else 0
  | _, _ => 0

/-- Embedding of `getFileDistance` (filesystemUtilities.ts): directory
segments of each path (filename dropped), common prefix removed, remaining
segment counts summed. -/
def getFileDistance (fileA fileB : String) : Nat :=
  let filePathA := (splitChar '/' (normalize fileA).data).dropLast
  let filePathB := (splitChar '/' (normalize fileB).data).dropLast
  let i := commonPrefixLen filePathA filePathB
  (filePathA.length - i) + (filePathB.length - i)

/-- Node `path.join(dir, filename)` for the simple two-argument case used by
`getNonexistentFilename` (the existence oracle is abstract, so only the
shape of the joined path matters). -/
def joinPath (dir filename : String) : String :=
  if dir = "" then filename
  else if dir.data.getLast? = some '/' then dir ++ filename
  else dir ++ "/" ++ filename

/-- Candidate filename generated by iteration `i` of
`getNonexistentFilename`: `name+suffix` first, then `name-i+suffix` while
`i < max`, then `name-<random>+suffix`. `rand i` stands for the
`crypto.randomBytes(4).toString('hex')` token drawn at iteration `i`. -/
def nonexistentCandidate (rand : Nat → String) (name suffix : String) (max : Nat) (i : Nat) : String :=
  if i = 0 then name ++ suffix
  else name ++ "-" ++ (if i < max then toString i else rand i) ++ suffix

/-- Probe loop of `getNonexistentFilename`: returns the current candidate
when it does not exist or when the hard cap `max + 99` is reached. -/
def getNonexistentFilenameLoop (ex : String → Bool) (rand : Nat → String)
    (dir name suffix : String) (max : Nat) (i : Nat) : String :=
  let filename := nonexistentCandidate rand name suffix max i
  if i ≥ max + 99 then filename
  else if ex (joinPath dir filename) = true then
    getNonexistentFilenameLoop ex rand dir name suffix max (i + 1)
  else filename
termination_by max + 99 - i
decreasing_by omega

/-- Embedding of `getNonexistentFilename` (filesystemUtilities.ts). The
filesystem is abstracted by `ex` (file existence) and `exDir` (directory
existence); `rand` is the randomness source; `max` is the `max` parameter
(99 by default in the source). Thrown errors become `Except.error`. -/
def getNonexistentFilename (ex exDir : String → Bool) (rand : Nat → String)
    (dir name suffix : String) (max : Nat) : Except String String :=
  if name = "" then Except.error "name is empty"
  else if exDir dir = false then Except.error ("directory does not exist: " ++ dir)
  else Except.ok (getNonexistentFilenameLoop ex rand dir name suffix max 0)

/-- Ordered pairs of two lists, used to state the pair-counting contract of
`countSubstringMatches`. -/
def listPairs : List α → List β → List (α × β)
  | [], _ => []
  | a :: as, bs => bs.map (fun b => (a, b)) ++ listPairs as bs

/-- The sequence of non-overlapping matches a JavaScript global regex
produces on `content` when `exec` is iterated from `lastIndex = li`: each
step takes the matcher's next match and resumes at its end. -/
inductive RegexMatches (m : Matcher) (content : String) : Nat → List (Nat × Nat × String) → Prop
  | nil : ∀ li, m content li = none → RegexMatches m content li []
  | cons : ∀ li s e g rest, m content li = some (s, e, g) →
      RegexMatches m content e rest → RegexMatches m content li ((s, e, g) :: rest)

/-- A concrete matcher used to exercise the extraction loop: on the subject
`defa` it matches once at position 0 with end 3 and capture group `f`. -/
def sampleMatcher : Matcher := fun content li =>
  if li = 0 ∧ content = "defa" then some (0, 3, "f") else none


/-! ## General lemmas about the string and list helpers -/

theorem isPrefixOf_exists (l₁ l₂ : List Char) : l₁.isPrefixOf l₂ = true ↔ ∃ t, l₁ ++ t = l₂ := by
  rw [ List.isPrefixOf_iff_prefix]
  exact Iff.rfl

theorem hasSubstr_iff (n : List Char) : ∀ h : List Char, hasSubstr n h = true ↔ ∃ u v, u ++ n ++ v = h
  | [] => by
    simp only [hasSubstr, List.isEmpty_iff]
    constructor
    · rintro rfl
      exact ⟨[], [], rfl⟩
    · rintro ⟨u, v, huv⟩
      rcases List.append_eq_nil.mp huv with ⟨h1, -⟩
      rcases List.append_eq_nil.mp h1 with ⟨-, h2⟩
      exact h2
  | c :: t => by
    simp only [hasSubstr, Bool.or_eq_true, isPrefixOf_exists, hasSubstr_iff n t]
    constructor
    · rintro (⟨v, hv⟩ | ⟨u, v, huv⟩)
      · exact ⟨[], v, by simpa using hv⟩
      · exact ⟨c :: u, v, by simp [huv]⟩
    · rintro ⟨u, v, huv⟩
      cases u with
      | nil => exact Or.inl ⟨v, by simpa using huv⟩
      | cons a u =>
        simp only [List.cons_append, List.cons.injEq] at huv
        exact Or.inr ⟨u, v, by simp [huv.1, huv.2]⟩

theorem hasSubstr_nil (l : List Char) : hasSubstr [] l = true := by
  cases l <;> simp [hasSubstr]

theorem foldl_count_eq (p : β → Bool) :
    ∀ (l : List β) (c : Nat),
      l.foldl (fun acc b => if p b then acc + 1 else acc) c = c + (l.filter p).length
  | [], c => by simp
  | b :: l, c => by
    cases hb : p b
    · simp [List.filter_cons, hb, foldl_count_eq p l c]
    · simp [List.filter_cons, hb, foldl_count_eq p l (c + 1)]
      omega

theorem countSubstringMatches_eq_sum (hs : List String) :
    ∀ (ns : List String) (c : Nat),
      ns.foldl
        (fun count str1 =>
          hs.foldl
            (fun c2 str2 => if strIncludes (toLowerCase str2) (toLowerCase str1) then c2 + 1 else c2)
            count)
        c =
      c + (ns.map
        (fun n => (hs.filter (fun h2 => strIncludes (toLowerCase h2) (toLowerCase n))).length)).sum
  | [], c => by simp
  | n :: ns, c => by
    rw [List.foldl_cons, foldl_count_eq, countSubstringMatches_eq_sum hs ns]
    simp [Nat.add_assoc]

theorem listPairs_filter_length (P : α × β → Bool) :
    ∀ (as : List α) (bs : List β),
      ((listPairs as bs).filter P).length =
        (as.map (fun a => (bs.filter (fun b => P (a, b))).length)).sum
  | [], bs => by simp [listPairs]
  | a :: as, bs => by
    simp [listPairs, List.filter_append, List.filter_map,
      listPairs_filter_length P as bs, Function.comp_def]

/-! ## Claim theorems -/

/-- C6: `countSubstringMatches(needles, haystacks)` equals the number of
ordered pairs `(n, h)` whose lowercase haystack contains the lowercase
needle as a substring, each matching pair counted once. -/
theorem countSubstringMatches_spec (ns hs : List String) :
    countSubstringMatches ns hs =
      ((listPairs ns hs).filter
        (fun q => strIncludes (toLowerCase q.2) (toLowerCase q.1))).length ∧
    ∀ n h2, strIncludes (toLowerCase h2) (toLowerCase n) = true ↔
      ∃ u v, u ++ (toLowerCase n).data ++ v = (toLowerCase h2).data := by
  constructor
  · rw [listPairs_filter_length]
    exact (countSubstringMatches_eq_sum hs ns 0).trans (Nat.zero_add _)
  · exact fun n h2 => hasSubstr_iff (toLowerCase n).data (toLowerCase h2).data

/-- C10: every empty-string needle matches every haystack, so
`countSubstringMatches([""], hs)` is `hs.length`, and in general each
empty-string needle contributes exactly `hs.length` to the count. -/
theorem countSubstringMatches_empty_needle (ns hs : List String) :
    countSubstringMatches [""] hs = hs.length ∧
    countSubstringMatches ns hs =
      countSubstringMatches (ns.filter (fun n => !(n == ""))) hs +
        ns.countP (fun n => n == "") * hs.length := by
  have hsum : ∀ ns' : List String,
      countSubstringMatches ns' hs =
        (ns'.map
          (fun n => (hs.filter (fun h2 => strIncludes (toLowerCase h2) (toLowerCase n))).length)).sum :=
    fun ns' => (countSubstringMatches_eq_sum hs ns' 0).trans (Nat.zero_add _)
  have hempty :
      (hs.filter (fun h2 => strIncludes (toLowerCase h2) (toLowerCase ""))).length = hs.length := by
    rw [List.filter_eq_self.mpr]
    intro a _
    exact hasSubstr_nil (toLowerCase a).data
  have main : ∀ t : List String,
      (t.map
        (fun n => (hs.filter (fun h2 => strIncludes (toLowerCase h2) (toLowerCase n))).length)).sum =
      ((t.filter (fun n => !(n == ""))).map
        (fun n => (hs.filter (fun h2 => strIncludes (toLowerCase h2) (toLowerCase n))).length)).sum +
        t.countP (fun n => n == "") * hs.length := by
    intro t
    induction t with
    | nil => simp
    | cons n t ih =>
      by_cases hn : n = ""
      · have hb : (n == "") = true := by simpa using hn
        subst hn
        simp [List.filter_cons, List.countP_cons, hb, hempty]
        rw [Nat.add_mul, Nat.one_mul]
        omega
      · have hb : (n == "") = false := by simpa using hn
        simp [List.filter_cons, List.countP_cons, hb]
        omega
  constructor
  · rw [hsum [""]]
    simpa using hempty
  · rw [hsum ns, hsum (ns.filter (fun n => !(n == "")))]
    exact main ns

/-- Rewriting `isTestFile` as the disjunction of its two heuristics. -/
theorem isTestFile_eq_or (filePath : String) (cfg : ClassificationInput) :
    isTestFile filePath cfg =
      (pathContainsTest (normalize filePath) ||
        isTestFileByName (normalize filePath) cfg.languageId) := by
  cases hP : pathContainsTest (normalize filePath) <;>
    cases hF : isTestFileByName (normalize filePath) cfg.languageId <;>
      simp [isTestFile, hP, hF]

/-- C9: the decision of `isTestFile` is independent of the optional
`fileContent` argument. -/
theorem isTestFile_content_independent :
    ∀ (filePath languageId : String) (c1 c2 : Option String),
      isTestFile filePath ⟨languageId, c1⟩ = isTestFile filePath ⟨languageId, c2⟩ :=
  fun _ _ _ _ => rfl

/-- C8: a language identifier absent from the configuration table (such as
`go`) makes the name heuristic yield `false` without error, so `isTestFile`
reduces to the path heuristic alone. -/
theorem isTestFile_unknown_language :
    (∀ (filePath languageId : String) (fileContent : Option String),
        utgLanguageConfigs languageId = none →
          isTestFileByName (normalize filePath) languageId = false ∧
          isTestFile filePath ⟨languageId, fileContent⟩ = pathContainsTest (normalize filePath)) ∧
    utgLanguageConfigs "go" = none ∧
    isTestFile "src/widget.go" ⟨"go", none⟩ = false := by
  refine ⟨?_, rfl, by decide⟩
  intro filePath languageId fileContent hnone
  have hbn : isTestFileByName (normalize filePath) languageId = false := by
    unfold isTestFileByName
    rw [hnone]
  refine ⟨hbn, ?_⟩
  rw [isTestFile_eq_or]
  simp [hbn]

/-- C8 witness: instantiated at `src/widget.go` with language `go`. -/
theorem isTestFile_unknown_language_witness :
    isTestFileByName (normalize "a/b.go") "go" = false ∧
    isTestFile "a/b.go" ⟨"go", none⟩ = pathContainsTest (normalize "a/b.go") :=
  isTestFile_unknown_language.1 "a/b.go" "go" none rfl


/-- C1 counterexample: at `latest/widget.go` with language `go` the basename
matches no configured pattern, `isTestFile` returns `true` (the substring
check sees `test/` inside `latest/`), yet no whole path segment is `tests`,
`test` or `tst` — so the claimed equivalence fails. -/
theorem isTestFile_segment_claim_false :
    ¬ ((∀ cfg, utgLanguageConfigs "go" = some cfg →
          ∀ q ∈ cfg.testFilenamePattern, q (basename (normalize "latest/widget.go")) = false) →
        (isTestFile "latest/widget.go" ⟨"go", none⟩ = true ↔
          hasTestSegment (normalize "latest/widget.go") = true)) := by
  intro h
  have hvac : ∀ cfg, utgLanguageConfigs "go" = some cfg →
      ∀ q ∈ cfg.testFilenamePattern, q (basename (normalize "latest/widget.go")) = false := by
    intro cfg hcfg
    rw [show utgLanguageConfigs "go" = none from rfl] at hcfg
    exact Option.noConfusion hcfg
  exact absurd ((h hvac).mp (by decide)) (by decide)

/-- C1 amended: when the basename matches no configured test-filename
pattern, `isTestFile` returns `true` exactly when the slash-normalized path
contains `tests/`, `test/` or `tst/` as a substring (not as a whole
segment). -/
theorem isTestFile_path_substring_heuristic :
    ∀ (filePath languageId : String) (fileContent : Option String),
      (∀ cfg, utgLanguageConfigs languageId = some cfg →
          ∀ q ∈ cfg.testFilenamePattern, q (basename (normalize filePath)) = false) →
      (isTestFile filePath ⟨languageId, fileContent⟩ = true ↔
        pathContainsTest (normalize filePath) = true) := by
  intro filePath languageId fileContent hmatch
  have hbn : isTestFileByName (normalize filePath) languageId = false := by
    unfold isTestFileByName
    cases hl : utgLanguageConfigs languageId with
    | none => rfl
    | some cfg =>
      rw [List.any_eq_false]
      intro q hq
      simp [hmatch cfg hl q hq]
  rw [isTestFile_eq_or]
  simp [hbn]

/-- C1 witness: instantiated at `src/main/widget.go` with language `go`
(vacuously no pattern match), where both sides of the equivalence are
false. -/
theorem isTestFile_path_substring_heuristic_witness :
    (isTestFile "src/main/widget.go" ⟨"go", none⟩ = true ↔
      pathContainsTest (normalize "src/main/widget.go") = true) ∧
    isTestFile "src/main/widget.go" ⟨"go", none⟩ = false := by
  refine ⟨isTestFile_path_substring_heuristic "src/main/widget.go" "go" none ?_, by decide⟩
  intro cfg hcfg
  rw [show utgLanguageConfigs "go" = none from rfl] at hcfg
  exact Option.noConfusion hcfg

/-! ## Lemmas about the overlap search of part_000 -/

theorem overlapLen_le (a b : List Char) : ∀ i, overlapLen a b i ≤ i
  | 0 => Nat.le_refl 0
  | i + 1 => by
    unfold overlapLen
    split
    · exact Nat.le_refl _
    · exact Nat.le_trans (overlapLen_le a b i) (Nat.le_succ i)

theorem overlapLen_zero_or_match (a b : List Char) :
    ∀ i, overlapLen a b i = 0 ∨
      b.take (overlapLen a b i) = a.drop (a.length - overlapLen a b i)
  | 0 => Or.inl rfl
  | i + 1 => by
    unfold overlapLen
    split
    · next hc => exact Or.inr hc
    · exact overlapLen_zero_or_match a b i

theorem overlapLen_ge (a b : List Char) :
    ∀ i m, m ≤ i → b.take m = a.drop (a.length - m) → m ≤ overlapLen a b i
  | 0, m, hm, _ => hm
  | i + 1, m, hm, hc => by
    unfold overlapLen
    split
    · next => exact hm
    · next hne =>
      rcases Nat.lt_or_ge m (i + 1) with hlt | hge
      · exact overlapLen_ge a b i m (Nat.lt_succ_iff.mp hlt) hc
      · exact absurd (hm.antisymm hge ▸ hc) hne

/-- Unfolding step of `overlapLen` when the candidate length matches. -/
theorem overlapLen_succ (a b : List Char) (n : Nat)
    (hc : b.take (n + 1) = a.drop (a.length - (n + 1))) :
    overlapLen a b (n + 1) = n + 1 := by
  unfold overlapLen
  rw [if_pos hc]

/-- C5: `getPrefixSuffixOverlap(a, b)` is the longest string that is both a
suffix of `a` and a prefix of `b` (the empty string when none exists), and
on a non-empty string `s` the overlap of `s` with itself is all of `s`. -/
theorem getPrefixSuffixOverlap_spec (a b : String) :
    (∃ t, t ++ (getPrefixSuffixOverlap a b).data = a.data) ∧
    (∃ t, (getPrefixSuffixOverlap a b).data ++ t = b.data) ∧
    (∀ s : List Char, (∃ t, t ++ s = a.data) → (∃ t, s ++ t = b.data) →
      s.length ≤ (getPrefixSuffixOverlap a b).data.length) ∧
    (a ≠ "" → getPrefixSuffixOverlap a a = a) := by
  refine ⟨?_, ?_, ?_, ?_⟩
  · rcases overlapLen_zero_or_match a.data b.data (min a.data.length b.data.length) with h0 | hm
    · rw [show (getPrefixSuffixOverlap a b).data =
          b.data.take (overlapLen a.data b.data (min a.data.length b.data.length)) from rfl, h0]
      exact ⟨a.data, by simp⟩
    · refine ⟨a.data.take (a.data.length -
        overlapLen a.data b.data (min a.data.length b.data.length)), ?_⟩
      rw [show (getPrefixSuffixOverlap a b).data =
          b.data.take (overlapLen a.data b.data (min a.data.length b.data.length)) from rfl, hm]
      exact List.take_append_drop _ _
  · exact ⟨b.data.drop (overlapLen a.data b.data (min a.data.length b.data.length)),
      List.take_append_drop _ _⟩
  · rintro s ⟨t, ht⟩ ⟨u, hu⟩
    have hsa : s.length ≤ a.data.length := by
      rw [← ht, List.length_append]
      omega
    have hsb : s.length ≤ b.data.length := by
      rw [← hu, List.length_append]
      omega
    have htake : b.data.take s.length = s := by
      rw [← hu]
      exact List.take_left s u
    have hdrop : a.data.drop (a.data.length - s.length) = s := by
      have hlen : a.data.length - s.length = t.length := by
        rw [← ht, List.length_append]
        omega
      rw [hlen, ← ht]
      exact List.drop_left t s
    have hge := overlapLen_ge a.data b.data (min a.data.length b.data.length) s.length
      (Nat.le_min.mpr ⟨hsa, hsb⟩) (htake.trans hdrop.symm)
    have hlen : (getPrefixSuffixOverlap a b).data.length =
        overlapLen a.data b.data (min a.data.length b.data.length) := by
      rw [show (getPrefixSuffixOverlap a b).data =
          b.data.take (overlapLen a.data b.data (min a.data.length b.data.length)) from rfl]
      rw [List.length_take]
      have := Nat.le_trans (overlapLen_le a.data b.data (min a.data.length b.data.length))
        (Nat.min_le_right a.data.length b.data.length)
      omega
    omega
  · intro hne
    have hdne : a.data ≠ [] := fun h => hne (String.ext h)
    have hpos : 0 < a.data.length := List.length_pos.mpr hdne
    have hfull : overlapLen a.data a.data (min a.data.length a.data.length) = a.data.length := by
      rcases Nat.exists_eq_succ_of_ne_zero (Nat.pos_iff_ne_zero.mp hpos) with ⟨n, hn⟩
      have hcond : a.data.take (n + 1) = a.data.drop (a.data.length - (n + 1)) := by
        have h1 : a.data.length - (n + 1) = 0 := by omega
        have h2 : n + 1 = a.data.length := by omega
        rw [h1, List.drop_zero, h2, List.take_length]
      calc overlapLen a.data a.data (min a.data.length a.data.length)
          = overlapLen a.data a.data (n + 1) := by rw [Nat.min_self, hn]
        _ = n + 1 := overlapLen_succ a.data a.data n hcond
        _ = a.data.length := hn.symm
    show String.mk (a.data.take (overlapLen a.data a.data (min a.data.length a.data.length))) = a
    rw [hfull, List.take_length]

/-- C5 witness: instantiated at the spec example `("adwg31", "31ggrs")`,
including the maximality conjunct applied to the overlap `31`. -/
theorem getPrefixSuffixOverlap_spec_witness :
    getPrefixSuffixOverlap "adwg31" "31ggrs" = "31" ∧
    "31".data.length ≤ (getPrefixSuffixOverlap "adwg31" "31ggrs").data.length := by
  refine ⟨by decide, ?_⟩
  exact (getPrefixSuffixOverlap_spec "adwg31" "31ggrs").2.2.1 "31".data
    ⟨"adwg".data, by decide⟩ ⟨"ggrs".data, by decide⟩


/-! ## Lemmas about the common-prefix loop of getFileDistance -/

theorem commonPrefixLen_comm : ∀ xs ys : List (List Char),
    commonPrefixLen xs ys = commonPrefixLen ys xs
  | [], ys => by cases ys <;> rfl
  | x :: xs, [] => rfl
  | x :: xs, y :: ys => by
    unfold commonPrefixLen
    by_cases h : x = y
    · rw [if_pos h, if_pos h.symm, commonPrefixLen_comm xs ys]
    · rw [if_neg h, if_neg (fun hh => h hh.symm)]

theorem commonPrefixLen_le_left : ∀ xs ys : List (List Char),
    commonPrefixLen xs ys ≤ xs.length
  | [], ys => by cases ys <;> simp [commonPrefixLen]
  | x :: xs, [] => by simp [commonPrefixLen]
  | x :: xs, y :: ys => by
    unfold commonPrefixLen
    split
    · simpa using commonPrefixLen_le_left xs ys
    · simp

theorem commonPrefixLen_take : ∀ xs ys : List (List Char),
    xs.take (commonPrefixLen xs ys) = ys.take (commonPrefixLen xs ys)
  | [], ys => by cases ys <;> simp [commonPrefixLen]
  | x :: xs, [] => by simp [commonPrefixLen]
  | x :: xs, y :: ys => by
    unfold commonPrefixLen
    split
    · next h => simp [List.take_succ_cons, h, commonPrefixLen_take xs ys]
    · simp

theorem commonPrefixLen_longest : ∀ (xs ys : List (List Char)) (k : Nat),
    k ≤ xs.length → k ≤ ys.length → xs.take k = ys.take k → k ≤ commonPrefixLen xs ys
  | _, _, 0, _, _, _ => Nat.zero_le _
  | [], _, k + 1, hk, _, _ => by simp at hk
  | _ :: _, [], k + 1, _, hk, _ => by simp at hk
  | x :: xs, y :: ys, k + 1, hk1, hk2, hk => by
    simp only [List.take_succ_cons, List.cons.injEq] at hk
    unfold commonPrefixLen
    rw [if_pos hk.1]
    have := commonPrefixLen_longest xs ys k (by simpa using hk1) (by simpa using hk2) hk.2
    omega

theorem commonPrefixLen_self : ∀ xs : List (List Char), commonPrefixLen xs xs = xs.length
  | [] => rfl
  | x :: xs => by
    unfold commonPrefixLen
    rw [if_pos rfl, commonPrefixLen_self xs]
    rfl

/-- C4: `getFileDistance(x, y)` equals
`(lenX - commonPrefixLen) + (lenY - commonPrefixLen)` over the directory
segments of the two paths, where `commonPrefixLen` is the length of their
longest common prefix; the distance is symmetric and is `0` for files in the
same directory. -/
theorem getFileDistance_spec (x y : String) :
    getFileDistance x y =
      ((splitChar '/' (normalize x).data).dropLast.length -
        commonPrefixLen (splitChar '/' (normalize x).data).dropLast
          (splitChar '/' (normalize y).data).dropLast) +
      ((splitChar '/' (normalize y).data).dropLast.length -
        commonPrefixLen (splitChar '/' (normalize x).data).dropLast
          (splitChar '/' (normalize y).data).dropLast) ∧
    (splitChar '/' (normalize x).data).dropLast.take
        (commonPrefixLen (splitChar '/' (normalize x).data).dropLast
          (splitChar '/' (normalize y).data).dropLast) =
      (splitChar '/' (normalize y).data).dropLast.take
        (commonPrefixLen (splitChar '/' (normalize x).data).dropLast
          (splitChar '/' (normalize y).data).dropLast) ∧
    (∀ k, k ≤ (splitChar '/' (normalize x).data).dropLast.length →
        k ≤ (splitChar '/' (normalize y).data).dropLast.length →
        (splitChar '/' (normalize x).data).dropLast.take k =
          (splitChar '/' (normalize y).data).dropLast.take k →
        k ≤ commonPrefixLen (splitChar '/' (normalize x).data).dropLast
              (splitChar '/' (normalize y).data).dropLast) ∧
    getFileDistance x y = getFileDistance y x ∧
    ((splitChar '/' (normalize x).data).dropLast = (splitChar '/' (normalize y).data).dropLast →
      getFileDistance x y = 0) := by
  refine ⟨rfl, commonPrefixLen_take _ _, commonPrefixLen_longest _ _, ?_, ?_⟩
  · simp only [getFileDistance]
    rw [commonPrefixLen_comm]
    omega
  · intro h
    simp only [getFileDistance]
    rw [h, commonPrefixLen_self]
    omega

/-- C4 witness: the spec examples, including symmetry and the
same-directory case. -/
theorem getFileDistance_spec_witness :
    getFileDistance "A/B/C.java" "A/D.java" = 1 ∧
    getFileDistance "A/B/C.java" "A/D.java" = getFileDistance "A/D.java" "A/B/C.java" ∧
    getFileDistance "A/B/C.java" "A/B/D.java" = 0 := by
  refine ⟨by decide, (getFileDistance_spec "A/B/C.java" "A/D.java").2.2.2.1, ?_⟩
  exact (getFileDistance_spec "A/B/C.java" "A/B/D.java").2.2.2.2 (by decide)

/-! ## Lemmas about splitChar and trailing separators -/

theorem splitChar_ne_nil (sep : Char) : ∀ l : List Char, splitChar sep l ≠ []
  | [] => by simp [splitChar]
  | c :: cs => by
    unfold splitChar
    by_cases h : c = sep
    · rw [if_pos h]
      simp
    · rw [if_neg h]
      cases hs : splitChar sep cs with
      | nil => simp
      | cons g gs => simp

theorem splitChar_append_sep (sep : Char) : ∀ l : List Char,
    splitChar sep (l ++ [sep]) = splitChar sep l ++ [[]]
  | [] => by simp [splitChar]
  | c :: cs => by
    simp only [List.cons_append]
    unfold splitChar
    by_cases h : c = sep
    · rw [if_pos h, if_pos h, splitChar_append_sep sep cs]
      rfl
    · rw [if_neg h, if_neg h, splitChar_append_sep sep cs]
      cases hs : splitChar sep cs with
      | nil => exact absurd hs (splitChar_ne_nil sep cs)
      | cons g gs => rfl

theorem splitChar_append_replicate (sep : Char) : ∀ (k : Nat) (l : List Char),
    splitChar sep (l ++ List.replicate k sep) = splitChar sep l ++ List.replicate k []
  | 0, l => by simp
  | k + 1, l => by
    have h1 : l ++ List.replicate (k + 1) sep = (l ++ [sep]) ++ List.replicate k sep := by
      simp [List.replicate_succ]
    rw [h1, splitChar_append_replicate sep k (l ++ [sep]), splitChar_append_sep]
    simp [List.replicate_succ]

theorem dropWhile_replicate_append (p : α → Bool) (a : α) (hpa : p a = true) (t : List α) :
    ∀ k, List.dropWhile p (List.replicate k a ++ t) = List.dropWhile p t
  | 0 => by simp
  | k + 1 => by
    simp [List.replicate_succ, List.dropWhile_cons, hpa,
      dropWhile_replicate_append p a hpa t k]

theorem dropTrailingEmpties_append_replicate (l : List (List Char)) (k : Nat) :
    dropTrailingEmpties (l ++ List.replicate k []) = dropTrailingEmpties l := by
  unfold dropTrailingEmpties listDropTrailing
  rw [List.reverse_append, List.reverse_replicate,
    dropWhile_replicate_append (fun piece => piece.isEmpty) [] rfl l.reverse k]

theorem normalizeSeparator_append_slashes (d : String) (k : Nat) :
    (normalizeSeparator (d ++ slashes k)).data =
      (normalizeSeparator d).data ++ List.replicate k '/' := by
  show ((d ++ slashes k).data.map _) = _
  rw [String.data_append, List.map_append]
  congr 1
  show (List.replicate k '/').map _ = _
  rw [List.map_replicate]
  rfl

theorem isInDirectory_of_le (ci : Bool) (d p : String) (hd : d ≠ "") (hp : p ≠ "")
    (hlen : ¬ (splitChar '/' (normalizeSeparator d).data).length >
        (splitChar '/' (normalizeSeparator p).data).length) :
    isInDirectory ci d p =
      ((dropTrailingEmpties (splitChar '/' (normalizeSeparator d).data)).zip
        (splitChar '/' (normalizeSeparator p).data)).all
        (fun ab => segEq ci ab.1 ab.2) := by
  unfold isInDirectory
  rw [if_neg (not_or.mpr ⟨hd, hp⟩), if_neg hlen]

theorem isInDirectory_of_gt (ci : Bool) (d p : String) (hd : d ≠ "") (hp : p ≠ "")
    (hgt : (splitChar '/' (normalizeSeparator d).data).length >
        (splitChar '/' (normalizeSeparator p).data).length) :
    isInDirectory ci d p = false := by
  unfold isInDirectory
  rw [if_neg (not_or.mpr ⟨hd, hp⟩), if_pos hgt]

/-- C2 counterexample: `isInDirectory("a/b/", "a/b")` is `false` on both
platform regimes (the segment-count check runs before the trailing empty
segment is discarded), while `isInDirectory("a/b", "a/b")` is `true` — so
trailing separators are not transparently discarded as claimed. -/
theorem isInDirectory_trailing_slash_claim_false :
    (isInDirectory false "a/b/" "a/b" = false ∧ isInDirectory true "a/b/" "a/b" = false) ∧
    (isInDirectory false "a/b" "a/b" = true ∧ isInDirectory true "a/b" "a/b" = true) := by
  decide

/-- C2 amended: trailing separators on `d` are discarded only after the
segment-count check, so they do not change the result exactly when `p` has
at least as many raw segments as the slash-extended `d`; when `p` has fewer
raw segments than `d` the function returns `false` outright. The spec
example `isInDirectory("a/b/", "a/b/c")` still holds. -/
theorem isInDirectory_trailing_slash_amended :
    (∀ (ci : Bool) (d p : String) (k : Nat), d ≠ "" → p ≠ "" →
        (splitChar '/' (normalizeSeparator d).data).length + k ≤
          (splitChar '/' (normalizeSeparator p).data).length →
        isInDirectory ci (d ++ slashes k) p = isInDirectory ci d p) ∧
    (∀ (ci : Bool) (d p : String), d ≠ "" → p ≠ "" →
        (splitChar '/' (normalizeSeparator p).data).length <
          (splitChar '/' (normalizeSeparator d).data).length →
        isInDirectory ci d p = false) ∧
    (isInDirectory false "a/b/" "a/b/c" = true ∧ isInDirectory true "a/b/" "a/b/c" = true) := by
  refine ⟨?_, ?_, by decide⟩
  · intro ci d p k hd hp hlen
    have hdk : d ++ slashes k ≠ "" := by
      intro h
      apply hd
      have hdata : d.data ++ (slashes k).data = ([] : List Char) := by
        rw [← String.data_append, h]
      exact String.ext (List.append_eq_nil.mp hdata).1
    have hsplit : splitChar '/' (normalizeSeparator (d ++ slashes k)).data =
        splitChar '/' (normalizeSeparator d).data ++ List.replicate k [] := by
      rw [normalizeSeparator_append_slashes, splitChar_append_replicate]
    have hlen1 : ¬ (splitChar '/' (normalizeSeparator (d ++ slashes k)).data).length >
        (splitChar '/' (normalizeSeparator p).data).length := by
      rw [hsplit]
      simp only [List.length_append, List.length_replicate]
      omega
    have hlen2 : ¬ (splitChar '/' (normalizeSeparator d).data).length >
        (splitChar '/' (normalizeSeparator p).data).length := by omega
    rw [isInDirectory_of_le ci (d ++ slashes k) p hdk hp hlen1,
      isInDirectory_of_le ci d p hd hp hlen2, hsplit,
      dropTrailingEmpties_append_replicate]
  · intro ci d p hd hp hlt
    exact isInDirectory_of_gt ci d p hd hp hlt

/-- C2 witness: appending one separator to `a/b` does not change the answer
against `a/b/c`, which is `true`. -/
theorem isInDirectory_trailing_slash_amended_witness :
    isInDirectory false ("a/b" ++ slashes 1) "a/b/c" = isInDirectory false "a/b" "a/b/c" ∧
    isInDirectory false "a/b" "a/b/c" = true := by
  refine ⟨isInDirectory_trailing_slash_amended.1 false "a/b" "a/b/c" 1 (by decide) (by decide)
    (by decide), by decide⟩


/-! ## Lemmas about the probe loop of getNonexistentFilename -/

theorem getNonexistentFilenameLoop_stop (ex : String → Bool) (rand : Nat → String)
    (dir name suffix : String) (max : Nat) (i : Nat)
    (hlast : ex (joinPath dir (nonexistentCandidate rand name suffix max i)) = false ∨
      i = max + 99) :
    getNonexistentFilenameLoop ex rand dir name suffix max i =
      nonexistentCandidate rand name suffix max i := by
  unfold getNonexistentFilenameLoop
  by_cases hge : i ≥ max + 99
  · rw [if_pos hge]
  · have hfalse : ex (joinPath dir (nonexistentCandidate rand name suffix max i)) = false := by
      rcases hlast with h | h
      · exact h
      · exact absurd h.ge hge
    rw [if_neg hge, if_neg (by simp [hfalse])]

theorem getNonexistentFilenameLoop_first (ex : String → Bool) (rand : Nat → String)
    (dir name suffix : String) (max : Nat) :
    ∀ (n i k : Nat), k - i ≤ n → i ≤ k → k ≤ max + 99 →
      (∀ j, i ≤ j → j < k →
        ex (joinPath dir (nonexistentCandidate rand name suffix max j)) = true) →
      (ex (joinPath dir (nonexistentCandidate rand name suffix max k)) = false ∨ k = max + 99) →
      getNonexistentFilenameLoop ex rand dir name suffix max i =
        nonexistentCandidate rand name suffix max k
  | 0, i, k, hn, hik, _, _, hlast => by
    have hik' : i = k := by omega
    subst hik'
    exact getNonexistentFilenameLoop_stop ex rand dir name suffix max i hlast
  | n + 1, i, k, hn, hik, hk, hall, hlast => by
    by_cases hik' : i = k
    · subst hik'
      exact getNonexistentFilenameLoop_stop ex rand dir name suffix max i hlast
    · have hlt : i < k := by omega
      have hge : ¬ i ≥ max + 99 := by omega
      have htrue : ex (joinPath dir (nonexistentCandidate rand name suffix max i)) = true :=
        hall i (Nat.le_refl i) hlt
      unfold getNonexistentFilenameLoop
      rw [if_neg hge, if_pos htrue]
      exact getNonexistentFilenameLoop_first ex rand dir name suffix max n (i + 1) k (by omega)
        hlt hk (fun j hj1 hj2 => hall j (by omega) hj2) hlast

theorem getNonexistentFilenameLoop_exists (ex : String → Bool) (rand : Nat → String)
    (dir name suffix : String) (max : Nat) :
    ∀ (n i : Nat), max + 99 - i ≤ n → i ≤ max + 99 →
      ∃ k, i ≤ k ∧ k ≤ max + 99 ∧
        getNonexistentFilenameLoop ex rand dir name suffix max i =
          nonexistentCandidate rand name suffix max k
  | 0, i, hn, hi => by
    have hcap : i = max + 99 := by omega
    exact ⟨i, Nat.le_refl i, hi,
      getNonexistentFilenameLoop_stop ex rand dir name suffix max i (Or.inr hcap)⟩
  | n + 1, i, hn, hi => by
    by_cases hcap : i = max + 99
    · exact ⟨i, Nat.le_refl i, hi,
        getNonexistentFilenameLoop_stop ex rand dir name suffix max i (Or.inr hcap)⟩
    · by_cases hex : ex (joinPath dir (nonexistentCandidate rand name suffix max i)) = true
      · have hge : ¬ i ≥ max + 99 := by omega
        obtain ⟨k, hk1, hk2, hk3⟩ :=
          getNonexistentFilenameLoop_exists ex rand dir name suffix max n (i + 1)
            (by omega) (by omega)
        refine ⟨k, by omega, hk2, ?_⟩
        unfold getNonexistentFilenameLoop
        rw [if_neg hge, if_pos hex]
        exact hk3
      · have hfalse : ex (joinPath dir (nonexistentCandidate rand name suffix max i)) = false := by
          revert hex
          cases ex (joinPath dir (nonexistentCandidate rand name suffix max i)) <;> simp
        exact ⟨i, Nat.le_refl i, hi,
          getNonexistentFilenameLoop_stop ex rand dir name suffix max i (Or.inl hfalse)⟩

/-- C3: `getNonexistentFilename` errors exactly when the base name is empty
or the directory does not exist; otherwise it returns the first candidate of
the sequence `name+suffix`, `name-1+suffix`, `name-2+suffix`, … (switching
to a random token once the index reaches `max`) that does not exist,
probing at most up to the hard cap `max + 99`, where the last generated name
is returned regardless of existence. -/
theorem getNonexistentFilename_spec (ex exDir : String → Bool) (rand : Nat → String)
    (dir name suffix : String) (max : Nat) :
    ((name = "" ∨ exDir dir = false) ↔
      ∃ msg, getNonexistentFilename ex exDir rand dir name suffix max = Except.error msg) ∧
    (∀ k, name ≠ "" → exDir dir = true → k ≤ max + 99 →
      (∀ j, j < k → ex (joinPath dir (nonexistentCandidate rand name suffix max j)) = true) →
      (ex (joinPath dir (nonexistentCandidate rand name suffix max k)) = false ∨ k = max + 99) →
      getNonexistentFilename ex exDir rand dir name suffix max =
        Except.ok (nonexistentCandidate rand name suffix max k)) ∧
    (name ≠ "" → exDir dir = true →
      ∃ k, k ≤ max + 99 ∧
        getNonexistentFilename ex exDir rand dir name suffix max =
          Except.ok (nonexistentCandidate rand name suffix max k)) := by
  refine ⟨⟨?_, ?_⟩, ?_, ?_⟩
  · rintro (h | h)
    · exact ⟨"name is empty", by unfold getNonexistentFilename; rw [if_pos h]⟩
    · by_cases hn : name = ""
      · exact ⟨"name is empty", by unfold getNonexistentFilename; rw [if_pos hn]⟩
      · exact ⟨"directory does not exist: " ++ dir,
          by unfold getNonexistentFilename; rw [if_neg hn, if_pos h]⟩
  · rintro ⟨msg, hmsg⟩
    by_contra hcon
    push_neg at hcon
    unfold getNonexistentFilename at hmsg
    rw [if_neg hcon.1, if_neg hcon.2] at hmsg
    exact Except.noConfusion hmsg
  · intro k hn hdir hk hall hlast
    unfold getNonexistentFilename
    rw [if_neg hn, if_neg (by simp [hdir])]
    exact congrArg Except.ok (getNonexistentFilenameLoop_first ex rand dir name suffix max
      (max + 99) 0 k (by omega) (Nat.zero_le k) hk (fun j _ hj => hall j hj) hlast)
  · intro hn hdir
    obtain ⟨k, _, hk2, hk3⟩ := getNonexistentFilenameLoop_exists ex rand dir name suffix max
      (max + 99) 0 (by omega) (by omega)
    refine ⟨k, hk2, ?_⟩
    unfold getNonexistentFilename
    rw [if_neg hn, if_neg (by simp [hdir])]
    exact congrArg Except.ok hk3

/-- C3 witness: in a directory containing `foo.txt` and `foo-1.txt` (and
nothing else) with `max = 3`, the first free candidate is `foo-2.txt`. -/
theorem getNonexistentFilename_spec_witness :
    getNonexistentFilename (fun s => s == "d/foo.txt" || s == "d/foo-1.txt")
        (fun s => s == "d") (fun _ => "ab12cd34") "d" "foo" ".txt" 3 =
      Except.ok "foo-2.txt" := by
  have h := (getNonexistentFilename_spec (fun s => s == "d/foo.txt" || s == "d/foo-1.txt")
      (fun s => s == "d") (fun _ => "ab12cd34") "d" "foo" ".txt" 3).2.1 2
    (by decide) (by decide) (by omega) (by decide) (Or.inl (by decide))
  have hc : nonexistentCandidate (fun _ => "ab12cd34") "foo" ".txt" 3 2 = "foo-2.txt" := by decide
  exact h.trans (congrArg Except.ok hc)

/-! ## Lemma about the extraction loop -/

theorem extractMatchesAux_eq (m : Matcher) (content : String)
    (prog : ∀ li s e g, m content li = some (s, e, g) → li < e ∧ e ≤ content.data.length) :
    ∀ (ms : List (Nat × Nat × String)) (li : Nat), RegexMatches m content li ms →
      ∀ fuel, content.data.length + 1 - li ≤ fuel →
        extractMatchesAux m content li fuel = ms.map (fun t => t.2.2) := by
  intro ms li hms
  induction hms with
  | nil li2 hnone =>
    intro fuel hfuel
    cases fuel with
    | zero => rfl
    | succ f => simp [extractMatchesAux, hnone]
  | cons li2 s e g rest hsome _ ih =>
    intro fuel hfuel
    have hse := prog li2 s e g hsome
    cases fuel with
    | zero => omega
    | succ f =>
      simp only [extractMatchesAux, hsome, List.map_cons]
      rw [ih f (by omega)]

/-- C7: `extractFunctions` with no pattern returns the empty sequence; with
a pattern it returns exactly the first capture group of each
non-overlapping match, in order of occurrence and without deduplication
(the matcher abstracts a JavaScript global regex, whose matches advance
through the subject). -/
theorem extractFunctions_spec (content : String) (m : Matcher) :
    extractFunctions content none = [] ∧
    ((∀ li s e g, m content li = some (s, e, g) → li < e ∧ e ≤ content.data.length) →
      ∀ ms, RegexMatches m content 0 ms →
        extractFunctions content (some m) = ms.map (fun t => t.2.2)) := by
  refine ⟨rfl, ?_⟩
  intro prog ms hms
  exact extractMatchesAux_eq m content prog ms 0 hms (content.data.length + 1) (by omega)

/-- C7 witness: on subject `defa` the sample matcher matches once with
capture group `f`, and the loop collects exactly that group. -/
theorem extractFunctions_spec_witness :
    extractFunctions "defa" (some sampleMatcher) = ["f"] := by
  have hprog : ∀ li s e g, sampleMatcher "defa" li = some (s, e, g) →
      li < e ∧ e ≤ "defa".data.length := by
    intro li s e g hm
    unfold sampleMatcher at hm
    split at hm
    · next hcond =>
      simp only [Option.some.injEq, Prod.mk.injEq] at hm
      obtain ⟨rfl, rfl, rfl⟩ := hm
      exact ⟨by omega, by decide⟩
    · exact Option.noConfusion hm
  have hm0 : RegexMatches sampleMatcher "defa" 0 [(0, 3, "f")] :=
    RegexMatches.cons 0 0 3 "f" [] rfl (RegexMatches.nil 3 rfl)
  have h := (extractFunctions_spec "defa" sampleMatcher).2 hprog [(0, 3, "f")] hm0
  simpa using h

end Aws
